import Mathlib

/-!
Verification development for the speed-measurement engine of the
`internet-speed` repository.

The engine under study is `src/lib/accurate-speed-test.ts`
(`AccurateSpeedTestService`), together with the latency fallbacks in
`src/lib/speed-test-libraries.ts`.  Network effects are abstracted: each
HTTP request made by the engine is represented by an outcome drawn from an
environment (`Env`), namely the measured duration of a ping attempt (or
`none` for a timeout/error/abort), the chunk stream and final computed
speed of a download size, and likewise for each upload sample.  JS numbers
are modelled as exact rationals, and the asynchronous abort signal is
modelled by a discrete clock: every abort check and every request body
occupies one tick, and the signal is aborted at all ticks `≥ cancelAt`.
-/

attribute [local semireducible] Rat.add Rat.mul Rat.inv Rat.sub

/-- Phases of `SpeedTestProgress.phase` in `accurate-speed-test.ts`. -/
inductive Phase where
  | idle
  | ping
  | download
  | upload
  | complete
deriving DecidableEq, Repr

/-- Identifies the call site that emitted a progress event:
phase-start checkpoints (lines 42/72/97 of `accurate-speed-test.ts`),
per-attempt ping updates (line 56), live in-flight throughput updates
(lines 84/110 driven from inside a transfer), per-size / per-sample
completion checkpoints (lines 345/440), the final `complete` event
(line 134), and the continuous-ping monitor interval (line 193). -/
inductive EvKind where
  | phaseStart
  | pingSample
  | dlInflight
  | dlSizeDone
  | ulInflight
  | ulSampleDone
  | completeEv
  | monitor
deriving DecidableEq, Repr

/-- One progress event delivered to `onProgress`. -/
structure Ev where
  phase : Phase
  progress : ℚ
  kind : EvKind
deriving DecidableEq, Repr

/-- Result record of `runSpeedTest` (interface `SpeedTestResult`).  The
`jitter` fields of the source are square roots of rational variances; the
model carries the radicand (`jitterSq`), which determines the jitter
uniquely since square root is injective on nonnegative values. -/
structure RunResult where
  downloadSpeed : ℚ
  uploadSpeed : ℚ
  ping : ℚ
  jitterSq : ℚ
  packetLoss : ℚ
deriving DecidableEq, Repr

/-- Outcome of one `run` of the engine: the promise either resolves with a
result or rejects with the `Speed test was cancelled` error thrown at
line 150 of `accurate-speed-test.ts`. -/
inductive RunOutcome where
  | cancelled
  | ok (r : RunResult)
deriving DecidableEq, Repr

/-- Outcome of one HTTP transfer (a download size, or one upload sample):
the in-flight progress updates that passed the 100 ms gate, each carrying
the byte-count fraction reached and the instantaneous speed computed from
the interval deltas, and the final speed in Mbps computed on completion
(`none` when the request errored or was aborted before completing). -/
structure Transfer where
  chunks : List (ℚ × ℚ)
  final : Option ℚ
deriving Repr

/-- Abstract environment of one session: when the abort signal fires
(`none` = `stopTest` is never invoked), at which ticks the continuous-ping
interval of `startContinuousPing` fires, and the network outcome of every
request the engine can issue. -/
structure Env where
  cancelAt : Option ℕ
  monitor : ℕ → Bool
  pingO : ℕ → Option ℚ
  dlO : ℕ → Transfer
  ulO : ℕ → ℕ → Transfer

/-- The abort signal at tick `t`: set once the cancellation point has been
reached. -/
def sigAborted : Option ℕ → ℕ → Bool
  | some c, t => decide (c ≤ t)
  | none, _ => false

/-- Events the continuous-ping monitor contributes at tick `t`: one update
with `progress: 0` (line 193-203; `phase` is `"ping"` while a test runs),
unless the interval does not fire there or the signal is already aborted
(line 163 returns without emitting). -/
def monitorEvs (env : Env) (t : ℕ) : List Ev :=
  if env.monitor t && !sigAborted env.cancelAt t then
    [⟨Phase.ping, 0, EvKind.monitor⟩]
  else []

/-- Arithmetic mean `l.reduce((sum, x) => sum + x, 0) / l.length`. -/
def listMean (l : List ℚ) : ℚ := l.sum / l.length

/-- Population variance about `m`:
`l.reduce((sum, x) => sum + (x - m)^2, 0) / l.length` — the radicand of the
jitter computation at lines 274-276. -/
def popVarianceAbout (m : ℚ) (l : List ℚ) : ℚ :=
  (l.map (fun x => (x - m) ^ 2)).sum / l.length

/-- Result of the latency phase (`measurePingAccurate`): `ping`, the
jitter radicand, and `packetLoss`. -/
structure PingStats where
  ping : ℚ
  jitterSq : ℚ
  packetLoss : ℚ
deriving DecidableEq, Repr

/-- Line 251: a completed ping attempt contributes a latency sample
exactly when its duration lies in the window `(0, 5000)` ms. -/
def attemptOk : Option ℚ → Bool
  | some d => decide (0 < d ∧ d < 5000)
  | none => false

/-- The latency sample pool: the durations of the attempts that completed
inside the acceptance window, in arrival order (lines 240-262; a failed
attempt falls into the empty `catch` and contributes nothing). -/
def pingSamples (attempts : List (Option ℚ)) : List ℚ :=
  attempts.filterMap fun a =>
    match a with
    | some d => if 0 < d ∧ d < 5000 then some d else none
    | none => none

/-- Line 272: `pings.slice(Math.floor(n*0.1), Math.floor(n*0.9))` applied
to the ascending sort of the pool (for the pool sizes reachable in the
source, `n ≤ 15`, the float floors coincide with `n / 10` and
`9 * n / 10` in natural division). -/
def trimmedList (l : List ℚ) : List ℚ :=
  let s := List.insertionSort (fun a b => a ≤ b) l
  (s.take (9 * s.length / 10)).drop (s.length / 10)

/-- Lines 267-279 of `measurePingAccurate`: statistics from the collected
pool and the total attempt count. -/
def pingStatsFromSamples (pings : List ℚ) (totalAttempts : ℕ) : PingStats :=
  if pings.length = 0 then ⟨0, 0, 100⟩
  else
    let trimmedPings := trimmedList pings
    let avgPing := listMean trimmedPings
    { ping := avgPing
      jitterSq := popVarianceAbout avgPing trimmedPings
      packetLoss := ((totalAttempts : ℚ) - pings.length) / totalAttempts * 100 }

/-- The function `measurePingAccurate` as a pure function of the 15 attempt outcomes:
collect the sample pool, then compute the statistics.  `totalAttempts` is
incremented once per iteration (line 238), so it equals the number of
attempts. -/
def measurePingAccurate (attempts : List (Option ℚ)) : PingStats :=
  pingStatsFromSamples (pingSamples attempts) attempts.length

/-- Exponential moving average update of the live reading (lines 328 and
401): the first positive instantaneous sample seeds the average unchanged,
later ones are blended `0.7 * old + 0.3 * new`. -/
def emaStep (ravg s : ℚ) : ℚ :=
  if ravg = 0 then s else ravg * (7 / 10) + s * (3 / 10)

/-- Fold of the in-flight chunk updates over the live reading: each chunk
whose instantaneous speed is positive passes through `emaStep`, others
leave the reading untouched (the `if (instantSpeed > 0)` guards at
lines 326 and 400). -/
def chunkRavg (ravg : ℚ) (chunks : List (ℚ × ℚ)) : ℚ :=
  chunks.foldl (fun r c => if 0 < c.2 then emaStep r c.2 else r) ravg

/-- In-flight download events (line 330): progress
`(i + totalBytes / size) / testSizes.length` scaled into the 25-65 band,
emitted only for chunks with positive instantaneous speed. -/
def dlChunkEvs (i : ℕ) (chunks : List (ℚ × ℚ)) : List Ev :=
  chunks.filterMap fun c =>
    if 0 < c.2 then
      some ⟨Phase.download, 25 + 40 * (((i : ℚ) + c.1) / 6), EvKind.dlInflight⟩
    else none

/-- In-flight upload events (line 406): progress
`i / 6 + (sample / 3 + loaded / total) / 6` scaled into the 65-95 band. -/
def ulChunkEvs (i s : ℕ) (chunks : List (ℚ × ℚ)) : List Ev :=
  chunks.filterMap fun c =>
    if 0 < c.2 then
      some ⟨Phase.upload, 65 + 30 * ((i : ℚ) / 6 + ((s : ℚ) / 3 + c.1) / 6),
        EvKind.ulInflight⟩
    else none

/-- Line 342: a completed download size is aggregated exactly when its
speed lies in the sanity band `(0, 10000)` Mbps. -/
def dlAccept (s : ℚ) : Bool := decide (0 < s ∧ s < 10000)

/-- Line 437: a completed upload sample is aggregated exactly when its
speed lies in the band `(0, 1000)` Mbps. -/
def ulAccept (u : ℚ) : Bool := decide (0 < u ∧ u < 1000)

/-- Progress carried by the ping-attempt event for iteration `i`
(line 258 mapped through line 58): `5 + ((i+1)/15) * 20`. -/
def pingDoneProg (i : ℕ) : ℚ := 5 + ((i : ℚ) + 1) / 15 * 20

/-- Progress carried by the accepted-size download event for size index
`i` (line 345 mapped through line 86): `25 + ((i+1)/6) * 40`. -/
def dlDoneProg (i : ℕ) : ℚ := 25 + ((i : ℚ) + 1) / 6 * 40

/-- Progress carried by the accepted upload-sample event for size index
`i`, sample `s` (line 440 mapped through line 112):
`65 + ((i + (s+1)/3) / 6) * 30`. -/
def ulDoneProg (i s : ℕ) : ℚ := 65 + ((i : ℚ) + ((s : ℚ) + 1) / 3) / 6 * 30

/-- Result of running one phase loop: either the loop observed the abort
signal at a checkpoint that rethrows (the events already emitted are
kept), or it finished normally at clock `t` with a value. -/
inductive PhRes (α : Type) where
  | cancelled (evs : List Ev)
  | done (evs : List Ev) (t : ℕ) (val : α)
deriving Repr

/-- Prefix already-emitted events onto the result of the rest of a
loop. -/
def PhRes.prepend (l : List Ev) : PhRes α → PhRes α
  | .cancelled evs => .cancelled (l ++ evs)
  | .done evs t v => .done (l ++ evs) t v

/-- The loop of `measurePingAccurate` (lines 234-265) over the remaining
iteration indices: at each iteration the abort check at line 235 throws
`Cancelled` if the signal is set (tick `t`); the attempt itself occupies
tick `t+1` — if the signal fires there, the in-flight fetch rejects and
the attempt records a failure; a completed attempt inside the `(0, 5000)`
window joins the pool and emits one progress event. -/
def pingLoop (env : Env) : List ℕ → ℕ → List ℚ → PhRes (List ℚ)
  | [], t, samples => .done [] t samples
  | i :: rest, t, samples =>
    if sigAborted env.cancelAt t then .cancelled []
    else
      let mon := monitorEvs env (t + 1)
      let oc := if sigAborted env.cancelAt (t + 1) then none else env.pingO i
      match oc with
      | some d =>
        if 0 < d ∧ d < 5000 then
          (pingLoop env rest (t + 2) (samples ++ [d])).prepend
            (mon ++ [⟨Phase.ping, pingDoneProg i, EvKind.pingSample⟩])
        else (pingLoop env rest (t + 2) samples).prepend mon
      | none => (pingLoop env rest (t + 2) samples).prepend mon

/-- State change of processing one download size (lines 293-351, the body
of the `try`): outcome of the transfer at tick `t+1` (an abort firing
there turns it into a failed transfer), the chunk updates to the live
reading and their events, then acceptance into `speeds` with the running
average overwritten by the mean of the accepted speeds (line 344), and the
early-exit test of line 348.  A failed transfer is swallowed by the
`catch` at line 349 and changes nothing. -/
structure StepRes where
  evs : List Ev
  speeds : List ℚ
  ravg : ℚ
  stop : Bool
deriving Repr

def dlSizeStep (env : Env) (i size t : ℕ) (speeds : List ℚ) (ravg : ℚ) : StepRes :=
  let res := if sigAborted env.cancelAt (t + 1) then ⟨[], none⟩ else env.dlO i
  let mon := monitorEvs env (t + 1)
  let r1 := chunkRavg ravg res.chunks
  let chevs := dlChunkEvs i res.chunks
  match res.final with
  | some s =>
    if dlAccept s then
      let sp := speeds ++ [s]
      ⟨mon ++ chevs ++ [⟨Phase.download, dlDoneProg i, EvKind.dlSizeDone⟩],
        sp, listMean sp, decide (s < 1 ∧ 1000000 < size)⟩
    else ⟨mon ++ chevs, speeds, r1, decide (s < 1 ∧ 1000000 < size)⟩
  | none => ⟨mon ++ chevs, speeds, r1, false⟩

/-- The size loop of `measureDownloadSpeedAccurate` (lines 290-354) over
the remaining `(index, size)` pairs: abort check at line 291 (tick `t`),
then the size body; `stop` realises the `break` at line 348. -/
def dlLoop (env : Env) : List (ℕ × ℕ) → ℕ → List ℚ → ℚ → PhRes (List ℚ)
  | [], t, speeds, _ => .done [] t speeds
  | p :: rest, t, speeds, ravg =>
    if sigAborted env.cancelAt t then .cancelled []
    else
      let st := dlSizeStep env p.1 p.2 t speeds ravg
      if st.stop then .done st.evs (t + 2) st.speeds
      else (dlLoop env rest (t + 2) st.speeds st.ravg).prepend st.evs

/-- Processing of one upload sample (lines 378-441): the XHR at tick
`t+1` (an abort firing there rejects it), chunk updates, then acceptance
under the `(0, 1000)` band with the running average overwritten by the
mean of the accepted speeds (line 439).  `stop` set means the sample
rejected (error or abort), which throws into the size-level `catch` at
line 445 and abandons the remaining samples of this size. -/
def ulSampleStep (env : Env) (i s t : ℕ) (speeds : List ℚ) (ravg : ℚ) : StepRes :=
  let res := if sigAborted env.cancelAt (t + 1) then ⟨[], none⟩ else env.ulO i s
  let mon := monitorEvs env (t + 1)
  let r1 := chunkRavg ravg res.chunks
  let chevs := ulChunkEvs i s res.chunks
  match res.final with
  | some u =>
    if ulAccept u then
      let sp := speeds ++ [u]
      ⟨mon ++ chevs ++ [⟨Phase.upload, ulDoneProg i s, EvKind.ulSampleDone⟩],
        sp, listMean sp, false⟩
    else ⟨mon ++ chevs, speeds, r1, false⟩
  | none => ⟨mon ++ chevs, speeds, r1, true⟩

/-- Aggregate result of the three-sample loop of one upload size. -/
structure SamplesRes where
  evs : List Ev
  t : ℕ
  speeds : List ℚ
  ravg : ℚ
  aborted : Bool
deriving Repr

/-- The sample loop at lines 375-442: the abort check at line 376 sits
INSIDE the `try`, so observing the signal there throws into the `catch`
at line 445 — it is swallowed, marked here by `aborted`, as is a rejected
sample. -/
def ulSamples (env : Env) (i : ℕ) : List ℕ → ℕ → List ℚ → ℚ → SamplesRes
  | [], t, speeds, ravg => ⟨[], t, speeds, ravg, false⟩
  | s :: rest, t, speeds, ravg =>
    if sigAborted env.cancelAt t then ⟨[], t + 1, speeds, ravg, true⟩
    else
      let st := ulSampleStep env i s t speeds ravg
      if st.stop then ⟨st.evs, t + 2, st.speeds, st.ravg, true⟩
      else
        let res := ulSamples env i rest (t + 2) st.speeds st.ravg
        ⟨st.evs ++ res.evs, res.t, res.speeds, res.ravg, res.aborted⟩

/-- The size loop of `measureUploadSpeedAccurate` (lines 367-450): abort
check at line 368 (outside the `try`, so it rethrows), the three samples,
and — only when the size was not abandoned by its `catch` — the early-exit
test of line 444. -/
def ulLoop (env : Env) : List (ℕ × ℕ) → ℕ → List ℚ → ℚ → PhRes (List ℚ)
  | [], t, speeds, _ => .done [] t speeds
  | p :: rest, t, speeds, ravg =>
    if sigAborted env.cancelAt t then .cancelled []
    else
      let sres := ulSamples env p.1 [0, 1, 2] (t + 1) speeds ravg
      if sres.aborted then (ulLoop env rest sres.t sres.speeds sres.ravg).prepend sres.evs
      else if sres.ravg < 1 / 2 ∧ 500000 < p.2 then .done sres.evs sres.t sres.speeds
      else (ulLoop env rest sres.t sres.speeds sres.ravg).prepend sres.evs

/-- Line 356 and line 452: the phase result is the mean of the accepted
speeds, or 0 when none was accepted. -/
def finalize (speeds : List ℚ) : ℚ :=
  if 0 < speeds.length then listMean speeds else 0

/-- The download test sizes with their indices (line 286). -/
def dlSizesIdx : List (ℕ × ℕ) :=
  [(0, 100000), (1, 500000), (2, 1000000), (3, 2000000), (4, 5000000), (5, 10000000)]

/-- The upload test sizes with their indices (line 363). -/
def ulSizesIdx : List (ℕ × ℕ) :=
  [(0, 50000), (1, 100000), (2, 250000), (3, 500000), (4, 1000000), (5, 2000000)]

/-- The session `runSpeedTest` (lines 30-157): phase-start checkpoints at
progress 5 / 25 / 65, the three phase loops threaded on the abort clock,
and the `complete` event at 100.  A loop that observes the abort signal at
a rethrowing checkpoint propagates to the `catch` at line 147, where
`signal.aborted` holds and the `Cancelled` error is thrown. -/
def runSpeedTest (env : Env) : List Ev × RunOutcome :=
  let e0 : Ev := ⟨Phase.ping, 5, EvKind.phaseStart⟩
  match pingLoop env (List.range 15) 0 [] with
  | .cancelled evs => (e0 :: evs, .cancelled)
  | .done evs1 t1 samples =>
    let stats := pingStatsFromSamples samples 15
    let e1 : Ev := ⟨Phase.download, 25, EvKind.phaseStart⟩
    match dlLoop env dlSizesIdx t1 [] 0 with
    | .cancelled evs => (e0 :: evs1 ++ e1 :: evs, .cancelled)
    | .done evs2 t2 dlSpeeds =>
      let e2 : Ev := ⟨Phase.upload, 65, EvKind.phaseStart⟩
      match ulLoop env ulSizesIdx t2 [] 0 with
      | .cancelled evs => (e0 :: evs1 ++ e1 :: evs2 ++ e2 :: evs, .cancelled)
      | .done evs3 _ ulSpeeds =>
        let finalResults : RunResult :=
          ⟨finalize dlSpeeds, finalize ulSpeeds, stats.ping, stats.jitterSq,
            stats.packetLoss⟩
        let e3 : Ev := ⟨Phase.complete, 100, EvKind.completeEv⟩
        (e0 :: evs1 ++ e1 :: evs2 ++ e2 :: evs3 ++ [e3], .ok finalResults)

/-- Controller-local state of `AccurateSpeedTestService` (lines 23-28):
an abort controller (if any; the flag records whether `abort()` has been
called on it), the running flag, and the continuous-ping interval
handle. -/
structure AccurateSpeedTestService where
  abortController : Option Bool
  isRunning : Bool
  pingInterval : Option Unit
deriving DecidableEq, Repr

/-- The public `stopTest` (lines 455-462): clear the interval, abort and
null the controller when one exists, and drop the running flag. -/
def AccurateSpeedTestService.stopTest (s : AccurateSpeedTestService) :
    AccurateSpeedTestService :=
  let s1 : AccurateSpeedTestService := { s with pingInterval := none }
  let s2 : AccurateSpeedTestService :=
    match s1.abortController with
    | some _ => { s1 with abortController := none }
    | none => s1
  { s2 with isRunning := false }

/-- Controller-local state of `BaseSpeedTestService` in
`speed-test-libraries.ts` (line 23). -/
structure BaseSpeedTestService where
  abortController : Option Bool
deriving DecidableEq, Repr

/-- The base-class `stopTest` (lines 27-32 of
`speed-test-libraries.ts`). -/
def BaseSpeedTestService.stopTest (s : BaseSpeedTestService) :
    BaseSpeedTestService :=
  match s.abortController with
  | some _ => { abortController := none }
  | none => s

/-- The sample pool built by `FallbackSpeedTestService.measureLatency`
(lines 755-781 of `speed-test-libraries.ts`; `NgSpeedTestService`'s
version at lines 495-539 behaves identically here): each attempt carries
its measured duration (`none` on timeout/error) and the `Math.random()`
draw of that iteration; a successful attempt pushes its duration, a FAILED
attempt pushes the fabricated value `50 + random * 50` (lines 772-775 and
526-528). -/
def fallbackLatencyPings (attempts : List (Option ℚ × ℚ)) : List ℚ :=
  attempts.map fun a =>
    match a.1 with
    | some d => d
    | none => 50 + a.2 * 50

/-- Result of the fallback `measureLatency`: `ping` is the mean of the
pool and the returned jitter is `max(stddev, 1)`; the second component is
its radicand, using `max(sqrt v, 1) = sqrt (max v 1)`. -/
def fallbackMeasureLatency (attempts : List (Option ℚ × ℚ)) : ℚ × ℚ :=
  let pings := fallbackLatencyPings attempts
  let avgPing := listMean pings
  (avgPing, max (popVarianceAbout avgPing pings) 1)

/-- A session that is never cancelled, in which every network request
succeeds uniformly: ping attempts take 50 ms, every transfer completes at
50 Mbps with no in-flight updates, and the monitor interval never
fires. -/
def envUniform : Env where
  cancelAt := none
  monitor := fun _ => false
  pingO := fun _ => some 50
  dlO := fun _ => ⟨[], some 50⟩
  ulO := fun _ _ => ⟨[], some 50⟩

/-- The same uniform session cancelled at tick 78: the abort signal fires
while the first sample of the final upload size (index 5) is at its inner
abort check, after five upload sizes have completed. -/
def envCancelLastUpload : Env :=
  { envUniform with cancelAt := some 78 }

/-- The uniform session cancelled at tick 41: the abort signal fires while
the transfer of the final download size (index 5) is in flight, so the
fetch rejects and the failure is swallowed by the size-level `catch`. -/
def envCancelLastDl : Env :=
  { envUniform with cancelAt := some 41 }

/-- A short session for the monotonicity counterexample: the monitor
interval fires at tick 1 (during the first ping attempt), the first ping
attempt succeeds in 50 ms and all other requests fail. -/
def envMonitorFires : Env where
  cancelAt := none
  monitor := fun t => t == 1
  pingO := fun i => if i == 0 then some 50 else none
  dlO := fun _ => ⟨[], none⟩
  ulO := fun _ _ => ⟨[], none⟩

/-- A session whose ping attempts all fail and whose transfers all fail
too. -/
def envAllFail : Env where
  cancelAt := none
  monitor := fun _ => false
  pingO := fun _ => none
  dlO := fun _ => ⟨[], none⟩
  ulO := fun _ _ => ⟨[], none⟩

/-- A session whose first upload sample completes at 2000 Mbps — inside
the download sanity band, outside the upload one — and everything else
fails. -/
def envUpload2000 : Env where
  cancelAt := none
  monitor := fun _ => false
  pingO := fun _ => none
  dlO := fun _ => ⟨[], none⟩
  ulO := fun i s => if i == 0 && s == 0 then ⟨[], some 2000⟩ else ⟨[], none⟩

/-- The checkpoint events of a session: phase starts, per-attempt ping
updates, per-size/per-sample completions and the final `complete` event —
as opposed to the in-flight live updates and the continuous-ping monitor
events. -/
def isCheckpoint : EvKind → Bool
  | .phaseStart => true
  | .pingSample => true
  | .dlSizeDone => true
  | .ulSampleDone => true
  | .completeEv => true
  | _ => false

/-- The progress values of the checkpoint events of a trace, in emission
order. -/
def ckProgs (evs : List Ev) : List ℚ :=
  (evs.filter fun e => isCheckpoint e.kind).map Ev.progress

/-- The download speeds the claim expects to be aggregated: for each size
processed, its completed speed when it lies in the sanity band. -/
def dlAcceptedOf (env : Env) : List (ℕ × ℕ) → List ℚ
  | [] => []
  | p :: rest =>
    (match (env.dlO p.1).final with
      | some s => if dlAccept s then [s] else []
      | none => []) ++ dlAcceptedOf env rest

/-- The upload speeds aggregated for one size: samples are taken in order
until one fails (a failure throws into the size-level `catch` and abandons
the rest of the size), and each completed sample in the band joins the
aggregate. -/
def ulSizeAcceptedOf (env : Env) (i : ℕ) : List ℕ → List ℚ
  | [] => []
  | s :: rest =>
    match (env.ulO i s).final with
    | none => []
    | some u => (if ulAccept u then [u] else []) ++ ulSizeAcceptedOf env i rest

/-- The upload speeds aggregated across the sizes. -/
def ulAcceptedOf (env : Env) : List (ℕ × ℕ) → List ℚ
  | [] => []
  | p :: rest => ulSizeAcceptedOf env p.1 [0, 1, 2] ++ ulAcceptedOf env rest

/-- Checkpoint progress values the upload phase can emit for the given
remaining sizes, in order. -/
def ckUlOf : List (ℕ × ℕ) → List ℚ
  | [] => []
  | p :: rest => ([0, 1, 2].map (ulDoneProg p.1)) ++ ckUlOf rest

/-- Fifteen ping attempts that all complete, each taking 6000 ms — no
request-level failure, but every duration is outside the `(0, 5000)`
acceptance window. -/
def attsAllSlow : List (Option ℚ) := List.replicate 15 (some 6000)

/-- Five latency attempts of the fallback services, all failing, with all
`Math.random()` draws equal to 0. -/
def attsAllFailRand : List (Option ℚ × ℚ) := List.replicate 5 (none, 0)

/-- Two ping attempts: one success in 50 ms, one failure. -/
def attsOneFail : List (Option ℚ) := [some 50, none]

theorem pingSamples_length (atts : List (Option ℚ)) :
    (pingSamples atts).length = atts.countP attemptOk := by
  induction atts with
  | nil => rfl
  | cons a rest ih =>
    cases a with
    | none => simpa [pingSamples, List.countP_cons, attemptOk] using ih
    | some d =>
      by_cases h : 0 < d ∧ d < 5000 <;>
        simpa [pingSamples, List.countP_cons, attemptOk, h] using ih

theorem mem_of_mem_pingSamples {atts : List (Option ℚ)} {x : ℚ}
    (hx : x ∈ pingSamples atts) : some x ∈ atts := by
  simp only [pingSamples, List.mem_filterMap] at hx
  obtain ⟨a, ha, hfa⟩ := hx
  cases a with
  | none => simp at hfa
  | some d =>
    by_cases h : 0 < d ∧ d < 5000
    · simp [h] at hfa
      rwa [hfa] at ha
    · simp [h] at hfa

theorem mem_of_mem_trimmedList {l : List ℚ} {x : ℚ}
    (hx : x ∈ trimmedList l) : x ∈ l := by
  simp only [trimmedList] at hx
  have h1 : x ∈ List.insertionSort (fun a b => a ≤ b) l :=
    List.mem_of_mem_take (List.mem_of_mem_drop hx)
  exact (List.perm_insertionSort _ l).subset h1

theorem trimmedList_length (l : List ℚ) :
    (trimmedList l).length = 9 * l.length / 10 - l.length / 10 := by
  simp only [trimmedList, List.length_drop, List.length_take,
    List.length_insertionSort]
  omega

theorem ckProgs_append (a b : List Ev) : ckProgs (a ++ b) = ckProgs a ++ ckProgs b := by
  simp [ckProgs]

theorem ckProgs_eq_nil {evs : List Ev}
    (h : ∀ e ∈ evs, isCheckpoint e.kind = false) : ckProgs evs = [] := by
  have : evs.filter (fun e => isCheckpoint e.kind) = [] :=
    List.filter_eq_nil_iff.mpr (by simpa using h)
  simp [ckProgs, this]

theorem ckProgs_monitorEvs (env : Env) (t : ℕ) : ckProgs (monitorEvs env t) = [] := by
  apply ckProgs_eq_nil
  intro e he
  unfold monitorEvs at he
  split at he
  · simp at he
    simp [he, isCheckpoint]
  · simp at he

theorem ckProgs_dlChunkEvs (i : ℕ) (chunks : List (ℚ × ℚ)) :
    ckProgs (dlChunkEvs i chunks) = [] := by
  apply ckProgs_eq_nil
  intro e he
  simp only [dlChunkEvs, List.mem_filterMap] at he
  obtain ⟨c, _, hce⟩ := he
  split at hce
  · cases hce
    rfl
  · cases hce

theorem ckProgs_ulChunkEvs (i s : ℕ) (chunks : List (ℚ × ℚ)) :
    ckProgs (ulChunkEvs i s chunks) = [] := by
  apply ckProgs_eq_nil
  intro e he
  simp only [ulChunkEvs, List.mem_filterMap] at he
  obtain ⟨c, _, hce⟩ := he
  split at hce
  · cases hce
    rfl
  · cases hce

theorem ckProgs_nil : ckProgs [] = [] := rfl

theorem ckProgs_cons_ckpt (e : Ev) (evs : List Ev) (h : isCheckpoint e.kind = true) :
    ckProgs (e :: evs) = e.progress :: ckProgs evs := by
  simp [ckProgs, List.filter_cons, h]

theorem ckProgs_cons (e : Ev) (evs : List Ev) :
    ckProgs (e :: evs) =
      if isCheckpoint e.kind = true then e.progress :: ckProgs evs
      else ckProgs evs := by
  by_cases h : isCheckpoint e.kind = true
  · rw [if_pos h]
    exact ckProgs_cons_ckpt e evs h
  · rw [if_neg h]
    simp only [Bool.not_eq_true] at h
    simp [ckProgs, List.filter_cons, h]

theorem dlSizeStep_ck (env : Env) (i size t : ℕ) (sp : List ℚ) (r : ℚ) :
    List.Sublist (ckProgs (dlSizeStep env i size t sp r).evs) [dlDoneProg i] := by
  unfold dlSizeStep
  split
  · simp [ckProgs_append, ckProgs_monitorEvs, ckProgs_dlChunkEvs]
  · dsimp only
    split
    · split
      · rw [ckProgs_append, ckProgs_append, ckProgs_monitorEvs, ckProgs_dlChunkEvs,
          ckProgs_cons_ckpt ⟨Phase.download, dlDoneProg i, EvKind.dlSizeDone⟩ [] rfl,
          ckProgs_nil]
        simp
      · simp [ckProgs_append, ckProgs_monitorEvs, ckProgs_dlChunkEvs]
    · simp [ckProgs_append, ckProgs_monitorEvs, ckProgs_dlChunkEvs]

theorem ulSampleStep_ck (env : Env) (i s t : ℕ) (sp : List ℚ) (r : ℚ) :
    List.Sublist (ckProgs (ulSampleStep env i s t sp r).evs) [ulDoneProg i s] := by
  unfold ulSampleStep
  split
  · simp [ckProgs_append, ckProgs_monitorEvs, ckProgs_ulChunkEvs]
  · dsimp only
    split
    · split
      · rw [ckProgs_append, ckProgs_append, ckProgs_monitorEvs, ckProgs_ulChunkEvs,
          ckProgs_cons_ckpt ⟨Phase.upload, ulDoneProg i s, EvKind.ulSampleDone⟩ [] rfl,
          ckProgs_nil]
        simp
      · simp [ckProgs_append, ckProgs_monitorEvs, ckProgs_ulChunkEvs]
    · simp [ckProgs_append, ckProgs_monitorEvs, ckProgs_ulChunkEvs]

theorem pingLoop_done {env : Env} (h : env.cancelAt = none) :
    ∀ (is : List ℕ) (t : ℕ) (sp : List ℚ), ∃ evs t' v,
      pingLoop env is t sp = .done evs t' v ∧
      List.Sublist (ckProgs evs) (is.map pingDoneProg) := by
  intro is
  induction is with
  | nil => exact fun t sp => ⟨[], t, sp, rfl, by simp [ckProgs]⟩
  | cons i rest ih =>
    intro t sp
    rw [pingLoop, h]
    simp only [sigAborted, Bool.false_eq_true, if_false]
    cases hpo : env.pingO i with
    | none =>
      simp only [hpo]
      obtain ⟨evs, t', v, heq, hsub⟩ := ih (t + 2) sp
      rw [heq]
      refine ⟨_, t', v, rfl, ?_⟩
      rw [ckProgs_append, ckProgs_monitorEvs]
      exact hsub.trans (List.sublist_cons_self _ _)
    | some d =>
      simp only [hpo]
      by_cases hband : 0 < d ∧ d < 5000
      · rw [if_pos hband]
        obtain ⟨evs, t', v, heq, hsub⟩ := ih (t + 2) (sp ++ [d])
        rw [heq]
        refine ⟨_, t', v, rfl, ?_⟩
        rw [ckProgs_append, ckProgs_append, ckProgs_monitorEvs,
          ckProgs_cons_ckpt ⟨Phase.ping, pingDoneProg i, EvKind.pingSample⟩ [] rfl,
          ckProgs_nil]
        simpa using hsub.cons₂ (pingDoneProg i)
      · rw [if_neg hband]
        obtain ⟨evs, t', v, heq, hsub⟩ := ih (t + 2) sp
        rw [heq]
        refine ⟨_, t', v, rfl, ?_⟩
        rw [ckProgs_append, ckProgs_monitorEvs]
        exact hsub.trans (List.sublist_cons_self _ _)

theorem dlLoop_done {env : Env} (h : env.cancelAt = none) :
    ∀ (rest : List (ℕ × ℕ)) (t : ℕ) (sp : List ℚ) (r : ℚ), ∃ evs t' v,
      dlLoop env rest t sp r = .done evs t' v ∧
      List.Sublist (ckProgs evs) (rest.map fun p => dlDoneProg p.1) := by
  intro rest
  induction rest with
  | nil => exact fun t sp r => ⟨[], t, sp, rfl, by simp [ckProgs]⟩
  | cons p rest ih =>
    intro t sp r
    rw [dlLoop, h]
    simp only [sigAborted, Bool.false_eq_true, if_false]
    split
    · exact ⟨_, t + 2, _, rfl,
        (dlSizeStep_ck env p.1 p.2 t sp r).trans
          ((List.nil_sublist _).cons₂ (dlDoneProg p.1))⟩
    · obtain ⟨evs, t', v, heq, hsub⟩ := ih (t + 2) (dlSizeStep env p.1 p.2 t sp r).speeds
        (dlSizeStep env p.1 p.2 t sp r).ravg
      rw [heq]
      refine ⟨_, t', v, rfl, ?_⟩
      rw [ckProgs_append]
      exact (dlSizeStep_ck env p.1 p.2 t sp r).append hsub

theorem ulSamples_ck (env : Env) (i : ℕ) :
    ∀ (ss : List ℕ) (t : ℕ) (sp : List ℚ) (r : ℚ),
      List.Sublist (ckProgs (ulSamples env i ss t sp r).evs) (ss.map (ulDoneProg i)) := by
  intro ss
  induction ss with
  | nil => exact fun t sp r => by simp [ulSamples, ckProgs]
  | cons s rest ih =>
    intro t sp r
    rw [ulSamples]
    split
    · simp [ckProgs]
    · dsimp only
      split
      · exact (ulSampleStep_ck env i s t sp r).trans
          ((List.nil_sublist _).cons₂ (ulDoneProg i s))
      · rw [ckProgs_append]
        exact (ulSampleStep_ck env i s t sp r).append (ih _ _ _)

theorem ulLoop_done {env : Env} (h : env.cancelAt = none) :
    ∀ (rest : List (ℕ × ℕ)) (t : ℕ) (sp : List ℚ) (r : ℚ), ∃ evs t' v,
      ulLoop env rest t sp r = .done evs t' v ∧
      List.Sublist (ckProgs evs) (ckUlOf rest) := by
  intro rest
  induction rest with
  | nil => exact fun t sp r => ⟨[], t, sp, rfl, by simp [ckProgs, ckUlOf]⟩
  | cons p rest ih =>
    intro t sp r
    rw [ulLoop, h]
    simp only [sigAborted, Bool.false_eq_true, if_false]
    have hck := ulSamples_ck env p.1 [0, 1, 2] (t + 1) sp r
    have hck2 : List.Sublist (ckProgs (ulSamples env p.1 [0, 1, 2] (t + 1) sp r).evs)
        (ckUlOf (p :: rest)) := by
      rw [ckUlOf]
      exact hck.trans (List.sublist_append_left _ _)
    split
    · obtain ⟨evs, t', v, heq, hsub⟩ :=
        ih (ulSamples env p.1 [0, 1, 2] (t + 1) sp r).t
          (ulSamples env p.1 [0, 1, 2] (t + 1) sp r).speeds
          (ulSamples env p.1 [0, 1, 2] (t + 1) sp r).ravg
      rw [heq]
      refine ⟨_, t', v, rfl, ?_⟩
      rw [ckProgs_append, ckUlOf]
      exact hck.append hsub
    · split
      · exact ⟨_, _, _, rfl, hck2⟩
      · obtain ⟨evs, t', v, heq, hsub⟩ :=
          ih (ulSamples env p.1 [0, 1, 2] (t + 1) sp r).t
            (ulSamples env p.1 [0, 1, 2] (t + 1) sp r).speeds
            (ulSamples env p.1 [0, 1, 2] (t + 1) sp r).ravg
        rw [heq]
        refine ⟨_, t', v, rfl, ?_⟩
        rw [ckProgs_append, ckUlOf]
        exact hck.append hsub

theorem pingLoop_samples {env : Env} (h : env.cancelAt = none)
    (hp : ∀ i, env.pingO i = none) :
    ∀ (is : List ℕ) (t : ℕ) (sp : List ℚ), ∃ evs t',
      pingLoop env is t sp = .done evs t' sp := by
  intro is
  induction is with
  | nil => exact fun t sp => ⟨[], t, rfl⟩
  | cons i rest ih =>
    intro t sp
    rw [pingLoop, h]
    simp only [sigAborted, Bool.false_eq_true, if_false, hp i]
    obtain ⟨evs, t', heq⟩ := ih (t + 2) sp
    exact ⟨_, t', by rw [heq]; rfl⟩

theorem finalize_eq (l : List ℚ) :
    finalize l = if l.length = 0 then 0 else l.sum / l.length := by
  cases l <;> simp [finalize, listMean]

theorem le_listMean {c : ℚ} (l : List ℚ) (hne : l ≠ [])
    (hall : ∀ x ∈ l, c ≤ x) : c ≤ listMean l := by
  have hlen : (0 : ℚ) < l.length := by
    have := List.length_pos.mpr hne
    exact_mod_cast this
  have hsum : c * l.length ≤ l.sum := by
    clear hne hlen
    induction l with
    | nil => simp
    | cons a l ih =>
      have ha := hall a (List.mem_cons_self _ _)
      have ih2 := ih fun x hx => hall x (List.mem_cons_of_mem _ hx)
      simp only [List.sum_cons, List.length_cons]
      push_cast
      linarith
  rw [listMean, le_div_iff₀ hlen]
  linarith

theorem dlSizeStep_char {env : Env} (h : env.cancelAt = none)
    (i size t : ℕ) (sp : List ℚ) (r : ℚ) :
    (dlSizeStep env i size t sp r).speeds =
      (match (env.dlO i).final with
        | some s => if dlAccept s then sp ++ [s] else sp
        | none => sp) ∧
    (dlSizeStep env i size t sp r).stop =
      (match (env.dlO i).final with
        | some s => decide (s < 1 ∧ 1000000 < size)
        | none => false) := by
  unfold dlSizeStep
  rw [h]
  cases hf : (env.dlO i).final with
  | none => simp [sigAborted, hf]
  | some s =>
    by_cases hacc : dlAccept s = true <;> simp [sigAborted, hf, hacc]

theorem ulSampleStep_char {env : Env} (h : env.cancelAt = none)
    (i s t : ℕ) (sp : List ℚ) (r : ℚ) :
    (ulSampleStep env i s t sp r).speeds =
      (match (env.ulO i s).final with
        | some u => if ulAccept u then sp ++ [u] else sp
        | none => sp) ∧
    (ulSampleStep env i s t sp r).stop = (env.ulO i s).final.isNone ∧
    (∀ u, (env.ulO i s).final = some u → ulAccept u = true →
      (ulSampleStep env i s t sp r).ravg = listMean (sp ++ [u])) := by
  unfold ulSampleStep
  rw [h]
  cases hf : (env.ulO i s).final with
  | none => simp [sigAborted, hf]
  | some u =>
    by_cases hacc : ulAccept u = true <;> simp [sigAborted, hf, hacc]

theorem dlLoop_acc {env : Env} (h : env.cancelAt = none) :
    ∀ (rest : List (ℕ × ℕ)) (t : ℕ) (sp : List ℚ) (r : ℚ),
      (∀ p ∈ rest, ∀ s, (env.dlO p.1).final = some s → ¬(s < 1 ∧ 1000000 < p.2)) →
      ∃ evs t', dlLoop env rest t sp r = .done evs t' (sp ++ dlAcceptedOf env rest) := by
  intro rest
  induction rest with
  | nil => exact fun t sp r _ => ⟨[], t, by simp [dlLoop, dlAcceptedOf]⟩
  | cons p rest ih =>
    intro t sp r hnb
    rw [dlLoop, h]
    simp only [sigAborted, Bool.false_eq_true, if_false]
    obtain ⟨hsp, hst⟩ := dlSizeStep_char h p.1 p.2 t sp r
    have hnbrest : ∀ q ∈ rest, ∀ s, (env.dlO q.1).final = some s →
        ¬(s < 1 ∧ 1000000 < q.2) :=
      fun q hq => hnb q (List.mem_cons_of_mem _ hq)
    cases hf : (env.dlO p.1).final with
    | none =>
      simp only [hf] at hsp hst
      rw [hst]
      simp only [Bool.false_eq_true, if_false]
      rw [hsp]
      obtain ⟨evs, t', heq⟩ := ih (t + 2) sp (dlSizeStep env p.1 p.2 t sp r).ravg hnbrest
      rw [heq]
      exact ⟨(dlSizeStep env p.1 p.2 t sp r).evs ++ evs, t',
        by simp [PhRes.prepend, dlAcceptedOf, hf]⟩
    | some s =>
      simp only [hf] at hsp hst
      have hstf : (dlSizeStep env p.1 p.2 t sp r).stop = false := by
        rw [hst]
        exact decide_eq_false (hnb p (List.mem_cons_self _ _) s hf)
      rw [hstf]
      simp only [Bool.false_eq_true, if_false]
      by_cases hacc : dlAccept s = true
      · rw [if_pos hacc] at hsp
        rw [hsp]
        obtain ⟨evs, t', heq⟩ := ih (t + 2) (sp ++ [s])
          (dlSizeStep env p.1 p.2 t sp r).ravg hnbrest
        rw [heq]
        exact ⟨(dlSizeStep env p.1 p.2 t sp r).evs ++ evs, t',
          by simp [PhRes.prepend, dlAcceptedOf, hf, hacc, List.append_assoc]⟩
      · rw [if_neg hacc] at hsp
        rw [hsp]
        obtain ⟨evs, t', heq⟩ := ih (t + 2) sp
          (dlSizeStep env p.1 p.2 t sp r).ravg hnbrest
        rw [heq]
        have hdf : dlAccept s = false := by
          cases hdl : dlAccept s
          · rfl
          · exact absurd hdl hacc
        exact ⟨(dlSizeStep env p.1 p.2 t sp r).evs ++ evs, t',
          by simp [PhRes.prepend, dlAcceptedOf, hf, hdf]⟩

theorem ulSamples_acc {env : Env} (h : env.cancelAt = none) (i : ℕ) :
    ∀ (ss : List ℕ) (t : ℕ) (sp : List ℚ) (r : ℚ),
      (∀ s ∈ ss, (env.ulO i s).final = none ∨
        ∃ u, (env.ulO i s).final = some u ∧ 1 / 2 ≤ u ∧ u < 1000) →
      (ulSamples env i ss t sp r).speeds = sp ++ ulSizeAcceptedOf env i ss ∧
      ((ulSamples env i ss t sp r).aborted = false →
        (ulSizeAcceptedOf env i ss).length = ss.length ∧
        (ss ≠ [] → (ulSamples env i ss t sp r).ravg =
          listMean (sp ++ ulSizeAcceptedOf env i ss))) := by
  intro ss
  induction ss with
  | nil =>
    intro t sp r _
    exact ⟨by simp [ulSamples, ulSizeAcceptedOf],
      fun _ => ⟨rfl, fun hne => absurd rfl hne⟩⟩
  | cons s rest ih =>
    intro t sp r htame
    obtain ⟨csp, cst, crv⟩ := ulSampleStep_char h i s t sp r
    rw [ulSamples, h]
    simp only [sigAborted, Bool.false_eq_true, if_false]
    rcases htame s (List.mem_cons_self _ _) with hnone | ⟨u, hu, hu1, hu2⟩
    · have hstop : (ulSampleStep env i s t sp r).stop = true := by
        rw [cst, hnone]
        rfl
      rw [hstop]
      simp only [if_true]
      simp only [hnone] at csp
      refine ⟨?_, ?_⟩
      · rw [csp]
        simp [ulSizeAcceptedOf, hnone]
      · intro hab
        cases hab
    · have hacc : ulAccept u = true := by
        simp only [ulAccept, decide_eq_true_eq]
        exact ⟨by linarith, hu2⟩
      have hstop : (ulSampleStep env i s t sp r).stop = false := by
        rw [cst, hu]
        rfl
      rw [hstop]
      simp only [Bool.false_eq_true, if_false]
      simp only [hu, hacc, if_true] at csp
      have hrv := crv u hu hacc
      rw [csp, hrv]
      have htrest : ∀ s2 ∈ rest, (env.ulO i s2).final = none ∨
          ∃ u2, (env.ulO i s2).final = some u2 ∧ 1 / 2 ≤ u2 ∧ u2 < 1000 :=
        fun s2 hs2 => htame s2 (List.mem_cons_of_mem _ hs2)
      obtain ⟨ihsp, ihrest⟩ := ih (t + 2) (sp ++ [u]) (listMean (sp ++ [u])) htrest
      refine ⟨?_, ?_⟩
      · rw [ihsp]
        simp [ulSizeAcceptedOf, hu, hacc, List.append_assoc]
      · intro hab
        obtain ⟨ihlen, ihrv⟩ := ihrest hab
        refine ⟨?_, fun _ => ?_⟩
        · simp only [ulSizeAcceptedOf, hu, hacc, if_true, List.length_append,
            List.length_cons, List.singleton_append]
          simp [ihlen]
        · by_cases hrest : rest = []
          · subst hrest
            simp [ulSamples, ulSizeAcceptedOf, hu, hacc]
          · rw [ihrv hrest]
            simp [ulSizeAcceptedOf, hu, hacc, List.append_assoc]

theorem ulLoop_acc {env : Env} (h : env.cancelAt = none) :
    ∀ (rest : List (ℕ × ℕ)) (t : ℕ) (sp : List ℚ) (r : ℚ),
      (∀ p ∈ rest, ∀ s ∈ ([0, 1, 2] : List ℕ), (env.ulO p.1 s).final = none ∨
        ∃ u, (env.ulO p.1 s).final = some u ∧ 1 / 2 ≤ u ∧ u < 1000) →
      (∀ x ∈ sp, 1 / 2 ≤ x) →
      ∃ evs t', ulLoop env rest t sp r = .done evs t' (sp ++ ulAcceptedOf env rest) := by
  intro rest
  induction rest with
  | nil => exact fun t sp r _ _ => ⟨[], t, by simp [ulLoop, ulAcceptedOf]⟩
  | cons p rest ih =>
    intro t sp r htame hsp
    rw [ulLoop, h]
    simp only [sigAborted, Bool.false_eq_true, if_false]
    have htamep := htame p (List.mem_cons_self _ _)
    have htamerest : ∀ q ∈ rest, ∀ s ∈ ([0, 1, 2] : List ℕ),
        (env.ulO q.1 s).final = none ∨
        ∃ u, (env.ulO q.1 s).final = some u ∧ 1 / 2 ≤ u ∧ u < 1000 :=
      fun q hq => htame q (List.mem_cons_of_mem _ hq)
    obtain ⟨ssp, srest⟩ := ulSamples_acc h p.1 [0, 1, 2] (t + 1) sp r htamep
    have haccmem : ∀ x ∈ ulSizeAcceptedOf env p.1 [0, 1, 2], 1 / 2 ≤ x := by
      have : ∀ (ss : List ℕ), (∀ s ∈ ss, (env.ulO p.1 s).final = none ∨
          ∃ u, (env.ulO p.1 s).final = some u ∧ 1 / 2 ≤ u ∧ u < 1000) →
          ∀ x ∈ ulSizeAcceptedOf env p.1 ss, 1 / 2 ≤ x := by
        intro ss
        induction ss with
        | nil => intro _ x hx; simp [ulSizeAcceptedOf] at hx
        | cons s2 ss2 ih2 =>
          intro ht x hx
          rcases ht s2 (List.mem_cons_self _ _) with hn | ⟨u, hu, hu1, hu2⟩
          · simp [ulSizeAcceptedOf, hn] at hx
          · have hacc : ulAccept u = true := by
              simp only [ulAccept, decide_eq_true_eq]
              exact ⟨by linarith, hu2⟩
            simp only [ulSizeAcceptedOf, hu, hacc, if_true,
              List.singleton_append, List.mem_cons] at hx
            rcases hx with hx | hx
            · rw [hx]
              exact hu1
            · exact ih2 (fun q hq => ht q (List.mem_cons_of_mem _ hq)) x hx
      exact this [0, 1, 2] htamep
    have hspall : ∀ x ∈ sp ++ ulSizeAcceptedOf env p.1 [0, 1, 2], 1 / 2 ≤ x := by
      intro x hx
      rcases List.mem_append.mp hx with hx | hx
      · exact hsp x hx
      · exact haccmem x hx
    cases hab : (ulSamples env p.1 [0, 1, 2] (t + 1) sp r).aborted with
    | true =>
      rw [if_pos rfl]
      obtain ⟨evs, t', heq⟩ := ih (ulSamples env p.1 [0, 1, 2] (t + 1) sp r).t
        (ulSamples env p.1 [0, 1, 2] (t + 1) sp r).speeds
        (ulSamples env p.1 [0, 1, 2] (t + 1) sp r).ravg htamerest
        (by rw [ssp]; exact hspall)
      rw [heq, ssp]
      exact ⟨(ulSamples env p.1 [0, 1, 2] (t + 1) sp r).evs ++ evs, t',
        by simp [PhRes.prepend, ulAcceptedOf, List.append_assoc]⟩
    | false =>
      rw [if_neg (by simp)]
      obtain ⟨hlen, hrv⟩ := srest hab
      have hrv3 := hrv (by simp)
      have hnonempty : sp ++ ulSizeAcceptedOf env p.1 [0, 1, 2] ≠ [] := by
        intro hemp
        have := congrArg List.length hemp
        simp [hlen] at this
      have hge : 1 / 2 ≤ (ulSamples env p.1 [0, 1, 2] (t + 1) sp r).ravg := by
        rw [hrv3]
        exact le_listMean _ hnonempty hspall
      rw [if_neg (by rintro ⟨hlt, _⟩; linarith)]
      obtain ⟨evs, t', heq⟩ := ih (ulSamples env p.1 [0, 1, 2] (t + 1) sp r).t
        (ulSamples env p.1 [0, 1, 2] (t + 1) sp r).speeds
        (ulSamples env p.1 [0, 1, 2] (t + 1) sp r).ravg htamerest
        (by rw [ssp]; exact hspall)
      rw [heq, ssp]
      exact ⟨(ulSamples env p.1 [0, 1, 2] (t + 1) sp r).evs ++ evs, t',
        by simp [PhRes.prepend, ulAcceptedOf, List.append_assoc]⟩

theorem pingCand_sorted :
    List.Sorted (fun a b => a ≤ b) ((List.range 15).map pingDoneProg) := by
  decide

theorem pingCand_bounds :
    ∀ p ∈ (List.range 15).map pingDoneProg, 5 ≤ p ∧ p ≤ 25 := by
  decide

theorem dlCand_sorted :
    List.Sorted (fun a b => a ≤ b) (dlSizesIdx.map fun p => dlDoneProg p.1) := by
  decide

theorem dlCand_bounds :
    ∀ p ∈ dlSizesIdx.map (fun p => dlDoneProg p.1), 25 ≤ p ∧ p ≤ 65 := by
  decide

theorem ulCand_sorted :
    List.Sorted (fun a b => a ≤ b) (ckUlOf ulSizesIdx) := by
  decide

theorem ulCand_bounds : ∀ p ∈ ckUlOf ulSizesIdx, 65 ≤ p ∧ p ≤ 100 := by
  decide

theorem sorted_le_append {l₁ l₂ : List ℚ} {m : ℚ}
    (h₁ : List.Sorted (fun a b => a ≤ b) l₁)
    (h₂ : List.Sorted (fun a b => a ≤ b) l₂)
    (hb₁ : ∀ x ∈ l₁, x ≤ m) (hb₂ : ∀ y ∈ l₂, m ≤ y) :
    List.Sorted (fun a b => a ≤ b) (l₁ ++ l₂) :=
  List.pairwise_append.mpr ⟨h₁, h₂, fun x hx y hy => le_trans (hb₁ x hx) (hb₂ y hy)⟩

/-- Claim C2, amended.  The full event sequence is not monotone (see the
counterexample: continuous-ping monitor events always carry progress 0,
and upload in-flight events can also overshoot a later checkpoint), but
the checkpoint events — phase starts, per-attempt ping updates, per-size
and per-sample completions, and the final `complete` event — carry
monotonically non-decreasing progress in every uncancelled session,
starting at 5 and ending at the `complete` event's 100, and no checkpoint
exceeds 100. -/
theorem C2_checkpoint_monotone :
    ∀ env : Env, env.cancelAt = none →
      List.Sorted (fun a b => a ≤ b) (ckProgs (runSpeedTest env).1) ∧
      (ckProgs (runSpeedTest env).1).head? = some 5 ∧
      (100 : ℚ) ∈ ckProgs (runSpeedTest env).1 ∧
      (∀ x ∈ ckProgs (runSpeedTest env).1, x ≤ 100) := by
  intro env hc
  obtain ⟨evs1, t1, v1, hping, hsubA⟩ := pingLoop_done hc (List.range 15) 0 []
  obtain ⟨evs2, t2, v2, hdl, hsubB⟩ := dlLoop_done hc dlSizesIdx t1 [] 0
  obtain ⟨evs3, t3, v3, hul, hsubC⟩ := ulLoop_done hc ulSizesIdx t2 [] 0
  unfold runSpeedTest
  rw [hping]
  dsimp only
  rw [hdl]
  dsimp only
  rw [hul]
  dsimp only
  have htr : ckProgs ((⟨Phase.ping, 5, EvKind.phaseStart⟩ : Ev) :: evs1 ++
      (⟨Phase.download, 25, EvKind.phaseStart⟩ : Ev) :: evs2 ++
      (⟨Phase.upload, 65, EvKind.phaseStart⟩ : Ev) :: evs3 ++
      [(⟨Phase.complete, 100, EvKind.completeEv⟩ : Ev)]) =
      5 :: (ckProgs evs1 ++ 25 :: (ckProgs evs2 ++ 65 :: (ckProgs evs3 ++ [100]))) := by
    simp [ckProgs_append, ckProgs_cons, isCheckpoint, ckProgs_nil]
  rw [htr]
  have hAm : ∀ x ∈ ckProgs evs1, 5 ≤ x ∧ x ≤ 25 :=
    fun x hx => pingCand_bounds x (hsubA.subset hx)
  have hBm : ∀ x ∈ ckProgs evs2, 25 ≤ x ∧ x ≤ 65 :=
    fun x hx => dlCand_bounds x (hsubB.subset hx)
  have hCm : ∀ x ∈ ckProgs evs3, 65 ≤ x ∧ x ≤ 100 :=
    fun x hx => ulCand_bounds x (hsubC.subset hx)
  have sA : List.Sorted (fun a b => a ≤ b) (ckProgs evs1) :=
    List.Pairwise.sublist hsubA pingCand_sorted
  have sB : List.Sorted (fun a b => a ≤ b) (ckProgs evs2) :=
    List.Pairwise.sublist hsubB dlCand_sorted
  have sC : List.Sorted (fun a b => a ≤ b) (ckProgs evs3) :=
    List.Pairwise.sublist hsubC ulCand_sorted
  have sC100 : List.Sorted (fun a b => a ≤ b) (ckProgs evs3 ++ [(100 : ℚ)]) :=
    sorted_le_append (m := 100) sC (List.sorted_singleton _)
      (fun x hx => (hCm x hx).2) (by simp)
  have s65 : List.Sorted (fun a b => a ≤ b) ((65 : ℚ) :: (ckProgs evs3 ++ [100])) := by
    rw [List.sorted_cons]
    refine ⟨?_, sC100⟩
    intro b hb
    rcases List.mem_append.mp hb with hb | hb
    · exact (hCm b hb).1
    · simp at hb
      rw [hb]
      norm_num
  have sB65 : List.Sorted (fun a b => a ≤ b)
      (ckProgs evs2 ++ (65 : ℚ) :: (ckProgs evs3 ++ [100])) := by
    refine sorted_le_append (m := 65) sB s65 (fun x hx => (hBm x hx).2) ?_
    intro y hy
    rcases List.mem_cons.mp hy with hy | hy
    · rw [hy]
    · rcases List.mem_append.mp hy with hy | hy
      · exact le_trans (by norm_num) (hCm y hy).1
      · simp at hy
        rw [hy]
        norm_num
  have s25 : List.Sorted (fun a b => a ≤ b)
      ((25 : ℚ) :: (ckProgs evs2 ++ 65 :: (ckProgs evs3 ++ [100]))) := by
    rw [List.sorted_cons]
    refine ⟨?_, sB65⟩
    intro b hb
    rcases List.mem_append.mp hb with hb | hb
    · exact (hBm b hb).1
    · rcases List.mem_cons.mp hb with hb | hb
      · rw [hb]
        norm_num
      · rcases List.mem_append.mp hb with hb | hb
        · exact le_trans (by norm_num) (hCm b hb).1
        · simp at hb
          rw [hb]
          norm_num
  have sA25 : List.Sorted (fun a b => a ≤ b)
      (ckProgs evs1 ++ 25 :: (ckProgs evs2 ++ 65 :: (ckProgs evs3 ++ [100]))) := by
    refine sorted_le_append (m := 25) sA s25 (fun x hx => (hAm x hx).2) ?_
    intro y hy
    rcases List.mem_cons.mp hy with hy | hy
    · rw [hy]
    · rcases List.mem_append.mp hy with hy | hy
      · exact (hBm y hy).1.trans' (by norm_num)
      · rcases List.mem_cons.mp hy with hy | hy
        · rw [hy]
          norm_num
        · rcases List.mem_append.mp hy with hy | hy
          · exact le_trans (by norm_num) (hCm y hy).1
          · simp at hy
            rw [hy]
            norm_num
  refine ⟨?_, rfl, ?_, ?_⟩
  · rw [List.sorted_cons]
    refine ⟨?_, sA25⟩
    intro b hb
    rcases List.mem_append.mp hb with hb | hb
    · exact (hAm b hb).1
    · rcases List.mem_cons.mp hb with hb | hb
      · rw [hb]
        norm_num
      · rcases List.mem_append.mp hb with hb | hb
        · exact le_trans (by norm_num) (hBm b hb).1
        · rcases List.mem_cons.mp hb with hb | hb
          · rw [hb]
            norm_num
          · rcases List.mem_append.mp hb with hb | hb
            · exact le_trans (by norm_num) (hCm b hb).1
            · simp at hb
              rw [hb]
              norm_num
  · simp
  · intro x hx
    rcases List.mem_cons.mp hx with hx | hx
    · rw [hx]
      norm_num
    · rcases List.mem_append.mp hx with hx | hx
      · exact le_trans (hAm x hx).2 (by norm_num)
      · rcases List.mem_cons.mp hx with hx | hx
        · rw [hx]
          norm_num
        · rcases List.mem_append.mp hx with hx | hx
          · exact le_trans (hBm x hx).2 (by norm_num)
          · rcases List.mem_cons.mp hx with hx | hx
            · rw [hx]
              norm_num
            · rcases List.mem_append.mp hx with hx | hx
              · exact (hCm x hx).2
              · simp at hx
                rw [hx]

/-- Claim C2, witness for the amended theorem: the monitor-interrupted
session still has sorted checkpoint progress values. -/
theorem C2_checkpoint_monotone_witness :
    List.Sorted (fun a b => a ≤ b) (ckProgs (runSpeedTest envMonitorFires).1) ∧
    (ckProgs (runSpeedTest envMonitorFires).1).head? = some 5 ∧
    (100 : ℚ) ∈ ckProgs (runSpeedTest envMonitorFires).1 ∧
    (∀ x ∈ ckProgs (runSpeedTest envMonitorFires).1, x ≤ 100) :=
  C2_checkpoint_monotone envMonitorFires rfl

/-- Claim C5: both throughput samplers always terminate normally in an
uncancelled session — an individual size failure is caught and the loop
continues — and the scalar they return is the arithmetic mean of the
accepted speed samples, or 0 when none was accepted.  When no early-exit
`break` fires (download: no completed size under 1 Mbps above 1 MB;
upload, guaranteed here by all samples being in-band and at least
0.5 Mbps or failing outright), the accepted samples are exactly the
in-band completed transfers, failures contributing nothing. -/
theorem C5_mean_of_accepted :
    ∀ env : Env, env.cancelAt = none → ∀ t : ℕ,
      (∃ evs t' sp, dlLoop env dlSizesIdx t [] 0 = .done evs t' sp ∧
        finalize sp = (if sp.length = 0 then 0 else sp.sum / sp.length) ∧
        ((∀ p ∈ dlSizesIdx, ∀ s : ℚ, (env.dlO p.1).final = some s →
            ¬(s < 1 ∧ 1000000 < p.2)) →
          sp = dlAcceptedOf env dlSizesIdx))
      ∧ (∃ evs t' sp, ulLoop env ulSizesIdx t [] 0 = .done evs t' sp ∧
        finalize sp = (if sp.length = 0 then 0 else sp.sum / sp.length) ∧
        ((∀ p ∈ ulSizesIdx, ∀ s ∈ ([0, 1, 2] : List ℕ),
            (env.ulO p.1 s).final = none ∨
            ∃ u, (env.ulO p.1 s).final = some u ∧ 1 / 2 ≤ u ∧ u < 1000) →
          sp = ulAcceptedOf env ulSizesIdx)) := by
  intro env hc t
  constructor
  · obtain ⟨evs, t', sp, heq, _⟩ := dlLoop_done hc dlSizesIdx t [] 0
    refine ⟨evs, t', sp, heq, finalize_eq sp, fun hnb => ?_⟩
    obtain ⟨evs2, t2, heq2⟩ := dlLoop_acc hc dlSizesIdx t [] 0 hnb
    rw [heq] at heq2
    cases heq2
    simp
  · obtain ⟨evs, t', sp, heq, _⟩ := ulLoop_done hc ulSizesIdx t [] 0
    refine ⟨evs, t', sp, heq, finalize_eq sp, fun htame => ?_⟩
    obtain ⟨evs2, t2, heq2⟩ := ulLoop_acc hc ulSizesIdx t [] 0 htame (by simp)
    rw [heq] at heq2
    cases heq2
    simp

/-- Claim C5, witness at the uniform session (every transfer succeeds at
50 Mbps, no early exit triggers). -/
theorem C5_mean_of_accepted_witness :
    (∃ evs t' sp, dlLoop envUniform dlSizesIdx 0 [] 0 = .done evs t' sp ∧
      finalize sp = (if sp.length = 0 then 0 else sp.sum / sp.length) ∧
      ((∀ p ∈ dlSizesIdx, ∀ s : ℚ, (envUniform.dlO p.1).final = some s →
          ¬(s < 1 ∧ 1000000 < p.2)) →
        sp = dlAcceptedOf envUniform dlSizesIdx))
    ∧ (∃ evs t' sp, ulLoop envUniform ulSizesIdx 0 [] 0 = .done evs t' sp ∧
      finalize sp = (if sp.length = 0 then 0 else sp.sum / sp.length) ∧
      ((∀ p ∈ ulSizesIdx, ∀ s ∈ ([0, 1, 2] : List ℕ),
          (envUniform.ulO p.1 s).final = none ∨
          ∃ u, (envUniform.ulO p.1 s).final = some u ∧ 1 / 2 ≤ u ∧ u < 1000) →
        sp = ulAcceptedOf envUniform ulSizesIdx)) :=
  C5_mean_of_accepted envUniform rfl 0

/-- Claim C4: a latency phase in which every attempt fails yields
`ping = 0`, `jitter = 0`, `packetLoss = 100` (no exception is thrown —
the embedding is a total function), and the session still proceeds to the
download phase: the run resolves with those statistics and the
download-phase start event is delivered. -/
theorem C4_total_latency_failure :
    (∀ atts : List (Option ℚ), (∀ a ∈ atts, a = none) →
      measurePingAccurate atts = ⟨0, 0, 100⟩)
    ∧ ∀ env : Env, env.cancelAt = none → (∀ i, env.pingO i = none) →
      (∃ r, (runSpeedTest env).2 = RunOutcome.ok r ∧
        r.ping = 0 ∧ r.jitterSq = 0 ∧ r.packetLoss = 100)
      ∧ (⟨Phase.download, 25, EvKind.phaseStart⟩ : Ev) ∈ (runSpeedTest env).1 := by
  constructor
  · intro atts ha
    have hnil : pingSamples atts = [] := by
      cases hs : pingSamples atts with
      | nil => rfl
      | cons x xs =>
        have hx : x ∈ pingSamples atts := by
          rw [hs]
          exact List.mem_cons_self _ _
        have h2 := ha _ (mem_of_mem_pingSamples hx)
        cases h2
    simp [measurePingAccurate, hnil, pingStatsFromSamples]
  · intro env hc hp
    obtain ⟨evs1, t1, hping⟩ := pingLoop_samples hc hp (List.range 15) 0 []
    obtain ⟨evs2, t2, v2, hdl, _⟩ := dlLoop_done hc dlSizesIdx t1 [] 0
    obtain ⟨evs3, t3, v3, hul, _⟩ := ulLoop_done hc ulSizesIdx t2 [] 0
    unfold runSpeedTest
    rw [hping]
    dsimp only
    rw [hdl]
    dsimp only
    rw [hul]
    dsimp only
    refine ⟨⟨_, rfl, ?_, ?_, ?_⟩, ?_⟩
    · simp [pingStatsFromSamples]
    · simp [pingStatsFromSamples]
    · simp [pingStatsFromSamples]
    · simp

/-- Claim C4, witness: the all-failures session with failing transfers. -/
theorem C4_total_latency_failure_witness :
    measurePingAccurate [none, none] = ⟨0, 0, 100⟩ ∧
    ((∃ r, (runSpeedTest envAllFail).2 = RunOutcome.ok r ∧
        r.ping = 0 ∧ r.jitterSq = 0 ∧ r.packetLoss = 100)
      ∧ (⟨Phase.download, 25, EvKind.phaseStart⟩ : Ev) ∈ (runSpeedTest envAllFail).1) :=
  ⟨C4_total_latency_failure.1 [none, none] (by decide),
    C4_total_latency_failure.2 envAllFail rfl (fun _ => rfl)⟩

/-- Claim C1: the code violates the claim.  Two failure modes, both from
the placement of abort handling inside per-size `try`/`catch` blocks.
First, in `envCancelLastUpload` the signal fires at tick 78 — during the
final upload size, with the run still in progress — yet the inner abort
check at line 376 throws into the `catch` at line 445, the loop ends
normally, and the run RESOLVES with partial results and emits `complete`:
cancellation is silently turned into a successful result.  Second, in
`envCancelLastDl` the signal fires while the final download size's
transfer is in flight (tick 41): the rejected fetch is swallowed at line
349, the upload phase-start event (phase `upload`, progress 65) is emitted
AFTER cancellation, and only then does the run reject. -/
theorem C1_cancellation_swallowed :
    envCancelLastUpload.cancelAt = some 78 ∧
    (runSpeedTest envCancelLastUpload).2 = RunOutcome.ok ⟨50, 50, 50, 0, 0⟩ ∧
    (⟨Phase.complete, 100, EvKind.completeEv⟩ : Ev) ∈
      (runSpeedTest envCancelLastUpload).1 ∧
    envCancelLastDl.cancelAt = some 41 ∧
    (runSpeedTest envCancelLastDl).2 = RunOutcome.cancelled ∧
    (⟨Phase.upload, 65, EvKind.phaseStart⟩ : Ev) ∈ (runSpeedTest envCancelLastDl).1 := by
  decide

/-- Claim C2, counterexample.  The progress values delivered to
`onProgress` are NOT monotonically non-decreasing: the continuous-ping
monitor (line 193) emits events with `progress: 0` throughout the run, so
after the ping phase-start event at progress 5 the very next delivered
event can carry progress 0. -/
theorem C2_counterexample :
    ¬ List.Sorted (fun a b => a ≤ b)
      ((runSpeedTest envMonitorFires).1.map Ev.progress) := by
  decide

/-- Claim C3, counterexample.  The claim states that for the five samples
`[10, 12, 11, 50, 9]` both the minimum 9 and the maximum 50 are discarded
before averaging.  In the code, `slice(Math.floor(5*0.1), Math.floor(5*0.9))
= slice(0, 4)` keeps the minimum: the trimmed set is `[9, 10, 11, 12]`
and the resulting ping is 10.5, not the mean 11 of `{10, 11, 12}`. -/
theorem C3_counterexample :
    trimmedList [10, 12, 11, 50, 9] = [9, 10, 11, 12] ∧
    (9 : ℚ) ∈ trimmedList [10, 12, 11, 50, 9] ∧
    (measurePingAccurate [some 10, some 12, some 11, some 50, some 9]).ping ≠ 11 := by
  decide

/-- Claim C3, amended.  The reduction sorts the pool and keeps the index
range `[⌊n/10⌋, ⌊9n/10⌋)`, so the trimmed pool has `⌊9n/10⌋ - ⌊n/10⌋`
elements; for the 5-sample input `[10, 12, 11, 50, 9]` only the maximum is
discarded, giving ping `21/2` and jitter the square root of `5/4` (the
population variance of the trimmed set about its mean), with no packet
loss. -/
theorem C3_trimmed_stats :
    (∀ l : List ℚ, (trimmedList l).length = 9 * l.length / 10 - l.length / 10)
    ∧ measurePingAccurate [some 10, some 12, some 11, some 50, some 9] =
        ⟨21 / 2, 5 / 4, 0⟩ :=
  ⟨trimmedList_length, by decide⟩

/-- Claim C6, counterexample.  The claim states the upload sampler accepts
exactly the samples in `(0, 10000)` Mbps.  A completed upload sample of
2000 Mbps lies in that band, yet the upload sampler (band `(0, 1000)`,
line 437) excludes it from the aggregate. -/
theorem C6_counterexample :
    (0 : ℚ) < 2000 ∧ (2000 : ℚ) < 10000 ∧
    (envUpload2000.ulO 0 0).final = some 2000 ∧
    (ulSampleStep envUpload2000 0 0 0 [] 0).speeds = [] := by
  decide

/-- Claim C6, amended.  The two samplers use different sanity bands: a
completed upload sample joins the aggregate exactly when its speed lies in
`(0, 1000)` Mbps, a completed download size exactly when its speed lies in
`(0, 10000)` Mbps; out-of-band samples leave the aggregate unchanged. -/
theorem C6_sanity_bands :
    (∀ env i s t sp r u, env.cancelAt = none → (env.ulO i s).final = some u →
      (ulSampleStep env i s t sp r).speeds =
        if 0 < u ∧ u < 1000 then sp ++ [u] else sp)
    ∧ (∀ env i sz t sp r s0, env.cancelAt = none → (env.dlO i).final = some s0 →
      (dlSizeStep env i sz t sp r).speeds =
        if 0 < s0 ∧ s0 < 10000 then sp ++ [s0] else sp) := by
  constructor
  · intro env i s t sp r u hc hf
    by_cases h : 0 < u ∧ u < 1000 <;>
      simp [ulSampleStep, hc, sigAborted, hf, ulAccept, h]
  · intro env i sz t sp r s0 hc hf
    by_cases h : 0 < s0 ∧ s0 < 10000 <;>
      simp [dlSizeStep, hc, sigAborted, hf, dlAccept, h]

/-- Claim C6, witness for the amended theorem at a concrete input: the
2000 Mbps upload sample is excluded, and as a download size it would have
been accepted. -/
theorem C6_sanity_bands_witness :
    (ulSampleStep envUpload2000 0 0 0 [] 0).speeds =
      (if (0 : ℚ) < 2000 ∧ (2000 : ℚ) < 1000 then [] ++ [2000] else []) ∧
    (dlSizeStep envUniform 0 100000 0 [] 0).speeds =
      (if (0 : ℚ) < 50 ∧ (50 : ℚ) < 10000 then [] ++ [50] else []) :=
  ⟨C6_sanity_bands.1 envUpload2000 0 0 0 [] 0 2000 rfl rfl,
    C6_sanity_bands.2 envUniform 0 100000 0 [] 0 50 rfl rfl⟩

/-- Claim C9: the live reading is an exponential moving average seeded by
the first positive instantaneous sample unchanged (`emaStep 0 s = s`,
otherwise `0.7 * old + 0.3 * new`), and whenever a per-size (download) or
per-sample (upload) speed is accepted, the live-reading variable is
overwritten with the arithmetic mean of all accepted speeds. -/
theorem C9_live_reading :
    (∀ s : ℚ, emaStep 0 s = s)
    ∧ (∀ r s : ℚ, r ≠ 0 → emaStep r s = r * (7 / 10) + s * (3 / 10))
    ∧ (∀ env i sz t sp r s0, env.cancelAt = none → (env.dlO i).final = some s0 →
        0 < s0 → s0 < 10000 →
        (dlSizeStep env i sz t sp r).ravg = (sp ++ [s0]).sum / ((sp.length : ℚ) + 1))
    ∧ (∀ env i s t sp r u, env.cancelAt = none → (env.ulO i s).final = some u →
        0 < u → u < 1000 →
        (ulSampleStep env i s t sp r).ravg = (sp ++ [u]).sum / ((sp.length : ℚ) + 1)) := by
  refine ⟨fun s => by simp [emaStep], fun r s hr => by simp [emaStep, hr], ?_, ?_⟩
  · intro env i sz t sp r s0 hc hf h0 h1
    simp [dlSizeStep, hc, sigAborted, hf, dlAccept, h0, h1, listMean]
  · intro env i s t sp r u hc hf h0 h1
    simp [ulSampleStep, hc, sigAborted, hf, ulAccept, h0, h1, listMean]

/-- Claim C9, witness at a concrete input. -/
theorem C9_live_reading_witness :
    emaStep 0 7 = 7 ∧ emaStep 2 12 = 2 * (7 / 10) + 12 * (3 / 10) ∧
    (dlSizeStep envUniform 0 100000 0 [] 0).ravg =
      ([] ++ [(50 : ℚ)]).sum / ((List.length ([] : List ℚ) : ℚ) + 1) ∧
    (ulSampleStep envUniform 0 0 0 [] 0).ravg =
      ([] ++ [(50 : ℚ)]).sum / ((List.length ([] : List ℚ) : ℚ) + 1) :=
  ⟨C9_live_reading.1 7, C9_live_reading.2.1 2 12 (by norm_num),
    C9_live_reading.2.2.1 envUniform 0 100000 0 [] 0 50 rfl rfl (by norm_num) (by norm_num),
    C9_live_reading.2.2.2 envUniform 0 0 0 [] 0 50 rfl rfl (by norm_num) (by norm_num)⟩

/-- Claim C7, counterexample.  The claim states that an attempt counts as
failed exactly when its request times out, errors or is aborted, and that
a completed request is never counted as lost.  Fifteen attempts that all
complete in 6000 ms have no request-level failure, so the claimed formula
gives 0% loss — yet the code reports 100%, because a completed attempt
outside the `(0, 5000)` ms window never increments `successfulPings`. -/
theorem C7_counterexample :
    (measurePingAccurate attsAllSlow).packetLoss = 100 ∧
    attsAllSlow.countP (fun a => a == none) = 0 ∧
    (measurePingAccurate attsAllSlow).packetLoss ≠
      ((attsAllSlow.countP (fun a => a == none) : ℚ) / attsAllSlow.length) * 100 := by
  decide

/-- Claim C7, amended.  `packetLossPercent` equals
`failedAttempts / totalAttempts * 100` where an attempt counts as failed
when its request errors/aborts OR completes with a duration outside the
`(0, 5000)` ms acceptance window; the value always lies in `[0, 100]`. -/
theorem C7_packet_loss :
    ∀ atts : List (Option ℚ), atts ≠ [] →
      (measurePingAccurate atts).packetLoss
          = ((atts.length : ℚ) - atts.countP attemptOk) / atts.length * 100
      ∧ 0 ≤ (measurePingAccurate atts).packetLoss
      ∧ (measurePingAccurate atts).packetLoss ≤ 100 := by
  intro atts h
  have hn : (0 : ℚ) < atts.length := by
    have := List.length_pos.mpr h
    exact_mod_cast this
  have hk : (atts.countP attemptOk : ℚ) ≤ atts.length := by
    exact_mod_cast List.countP_le_length attemptOk
  have hk0 : (0 : ℚ) ≤ atts.countP attemptOk := by positivity
  have hpl : (measurePingAccurate atts).packetLoss
      = ((atts.length : ℚ) - atts.countP attemptOk) / atts.length * 100 := by
    by_cases h0 : (pingSamples atts).length = 0
    · have hc : (atts.countP attemptOk : ℚ) = 0 := by
        rw [← pingSamples_length, h0]
        norm_num
      simp [measurePingAccurate, pingStatsFromSamples, h0, hc,
        div_self hn.ne']
    · simp only [measurePingAccurate, pingStatsFromSamples]
      rw [if_neg h0]
      simp [pingSamples_length]
  refine ⟨hpl, ?_, ?_⟩
  · rw [hpl]
    have : (0 : ℚ) ≤ ((atts.length : ℚ) - atts.countP attemptOk) / atts.length :=
      div_nonneg (by linarith) hn.le
    linarith
  · rw [hpl]
    have h1 : ((atts.length : ℚ) - atts.countP attemptOk) / atts.length ≤ 1 := by
      rw [div_le_one hn]
      linarith
    nlinarith

/-- Claim C7, witness for the amended theorem: one 50 ms success and one
failure give 50% packet loss. -/
theorem C7_packet_loss_witness :
    (measurePingAccurate attsOneFail).packetLoss
        = ((attsOneFail.length : ℚ) - attsOneFail.countP attemptOk) /
            attsOneFail.length * 100
    ∧ 0 ≤ (measurePingAccurate attsOneFail).packetLoss
    ∧ (measurePingAccurate attsOneFail).packetLoss ≤ 100 :=
  C7_packet_loss attsOneFail (by decide)

/-- Claim C8, counterexample.  The claim states that in every latency
phase, no fabricated constant is ever inserted into the sample pool in
place of a failed attempt.  The fallback latency samplers
(`FallbackSpeedTestService.measureLatency`, lines 772-775, and
`NgSpeedTestService.measureLatency`, lines 526-528, of
`speed-test-libraries.ts`) push `50 + Math.random() * 50` on every
failure: five failed attempts produce the pool `[50, 50, 50, 50, 50]` and
a reported ping of 50 ms although no request succeeded. -/
theorem C8_counterexample :
    fallbackLatencyPings attsAllFailRand = List.replicate 5 50 ∧
    (fallbackMeasureLatency attsAllFailRand).1 = 50 ∧
    attsAllFailRand.countP (fun a => a.1.isSome) = 0 := by
  decide

/-- Claim C8, amended.  In the accurate sampler's latency phase a failed
attempt contributes nothing: deleting a failed attempt leaves the pool
unchanged, and every element of the pool — hence of the trimmed pool the
statistics are computed from — is the duration of a successful attempt.
The library fallback latency samplers instead substitute the fabricated
value `50 + random * 50` for each failed attempt. -/
theorem C8_no_fabricated_samples :
    (∀ l1 l2 : List (Option ℚ), pingSamples (l1 ++ none :: l2) = pingSamples (l1 ++ l2))
    ∧ (∀ atts : List (Option ℚ), ∀ x ∈ pingSamples atts, some x ∈ atts)
    ∧ (∀ atts : List (Option ℚ), ∀ x ∈ trimmedList (pingSamples atts), some x ∈ atts) := by
  refine ⟨?_, ?_, ?_⟩
  · intro l1 l2
    simp [pingSamples]
  · intro atts x hx
    exact mem_of_mem_pingSamples hx
  · intro atts x hx
    exact mem_of_mem_pingSamples (mem_of_mem_trimmedList hx)

/-- Claim C8, witness for the amended theorem at concrete inputs. -/
theorem C8_no_fabricated_samples_witness :
    pingSamples ([some 3] ++ none :: [some 4]) = pingSamples ([some 3] ++ [some 4])
    ∧ some (3 : ℚ) ∈ ([some 3, none] : List (Option ℚ)) :=
  ⟨C8_no_fabricated_samples.1 [some 3] [some 4],
    C8_no_fabricated_samples.2.1 [some 3, none] 3 (by decide)⟩

/-- Claim C10: `stopTest` is total (a plain state transformation with no
fallible operation) and idempotent — a second consecutive invocation, or an
invocation with no test running, leaves the controller with the abort
controller cleared, the interval cleared and the running flag false, in
both `AccurateSpeedTestService` and `BaseSpeedTestService`. -/
theorem C10_stopTest_idempotent :
    (∀ s : AccurateSpeedTestService,
        s.stopTest.stopTest = s.stopTest ∧ s.stopTest.abortController = none ∧
        s.stopTest.isRunning = false ∧ s.stopTest.pingInterval = none)
    ∧ ∀ b : BaseSpeedTestService,
        b.stopTest.stopTest = b.stopTest ∧ b.stopTest.abortController = none := by
  constructor
  · intro s
    obtain ⟨ac, ir, pi⟩ := s
    cases ac <;> simp [AccurateSpeedTestService.stopTest]
  · intro b
    obtain ⟨ac⟩ := b
    cases ac <;> simp [BaseSpeedTestService.stopTest]
